import Mathlib

/-!
Verification of the LaTeX template processor
(`src/nodes/LatexTemplate/LatexTemplateProcessor.ts`).

The processor works on plain text.  We embed template text as `List Char`
and translate the two core methods:

* `extractVariables` runs the global regex
  `\newcommand\{\\(\w+)\}\{([^}]*)\}` over the content, collecting
  `(name, value)` pairs into a record where a later occurrence of the same
  name overwrites the earlier value (JS object assignment).

* `fillTemplate` iterates over the entries of the supplied record and, for
  each `(name, value)`, performs a global `String.replace` of the pattern
  `\newcommand\{\\<escaped name>\}\{[^}]*\}` by the replacement string
  `\newcommand{\name}{value}`.  Because the name is regex-escaped by
  `escapeRegex`, the compiled pattern matches the name literally, so the
  pattern is `\newcommand{\` ++ name ++ `}{`, a brace-free run, and `}`.
  JavaScript `String.replace` interprets `$$`, `$&`, a dollar followed by a
  backquote, and a dollar followed by a quote inside the replacement string;
  `subst` models that interpretation (the pattern has no capture groups, so
  dollar-digit sequences stay literal).

Both scans advance one character at a time and jump over each match
(leftmost, non-overlapping), exactly like a JS global regex.  The scans are
written with an explicit fuel argument (one unit per step, an initial fuel
of the text length always suffices) so that every function is structurally
recursive and computable by `decide`.
-/

/-- The backslash character. -/
def bslash : Char := '\\'

/-- The opening curly brace character (written via its code point). -/
def lbrace : Char := Char.ofNat 123

/-- The closing curly brace character (written via its code point). -/
def rbrace : Char := Char.ofNat 125

/-- The dollar character, special inside JS replacement strings. -/
def dollar : Char := '$'

/-- The backquote character (code point 96). -/
def bquote : Char := Char.ofNat 96

/-- The single quote character (code point 39). -/
def squote : Char := Char.ofNat 39

/-- JS `\w`: ASCII letters, digits and underscore. -/
def isWordChar (c : Char) : Bool :=
  ('a' ≤ c && c ≤ 'z') || ('A' ≤ c && c ≤ 'Z') || ('0' ≤ c && c ≤ '9') || c = '_'

/-- The literal text `\newcommand` followed by an opening brace and a
backslash: the part of both patterns that precedes the variable name. -/
def header : List Char := bslash :: "newcommand".data ++ [lbrace, bslash]

/-- The literal prefix matched by the `fillTemplate` pattern for `name`:
`\newcommand{\name}{`. -/
def fillPre (name : List Char) : List Char := header ++ name ++ [rbrace, lbrace]

/-- A complete variable-definition marker `\newcommand{\name}{value}`. -/
def mark (name value : List Char) : List Char := fillPre name ++ value ++ [rbrace]

/-- The replacement string built by `fillTemplate` for `(name, value)`:
`\newcommand{\name}{value}` (before JS dollar-interpretation). -/
def repl (name value : List Char) : List Char := fillPre name ++ value ++ [rbrace]

/-- `dropPre p l` returns `some r` with `l = p ++ r` when `l` starts with the
literal sequence `p`, and `none` otherwise. -/
def dropPre : List Char → List Char → Option (List Char)
  | [], l => some l
  | _ :: _, [] => none
  | p :: ps, c :: cs => if p = c then dropPre ps cs else none

/-- Boolean test that `l` starts with the literal sequence `p`. -/
def hasPre : List Char → List Char → Bool
  | [], _ => true
  | _ :: _, [] => false
  | p :: ps, c :: cs => p = c && hasPre ps cs

/-- Boolean test that the sequence `p` occurs somewhere inside `t`. -/
def containsPat (p : List Char) : List Char → Bool
  | [] => hasPre p []
  | l@(_ :: cs) => hasPre p l || containsPat p cs

/-- One attempt of the discovery regex `\newcommand\{\\(\w+)\}\{([^}]*)\}`
at the start of `l`.  On success returns the name, the value and the text
after the match.  The greedy runs need no backtracking: `\w+` must be
followed by `}` which is not a word character, and `[^}]*` must be followed
by `}` which the run cannot contain. -/
def matchMarkerAt (l : List Char) : Option (List Char × List Char × List Char) :=
  match dropPre header l with
  | none => none
  | some r1 =>
    let n := r1.takeWhile (fun c => isWordChar c)
    if n = [] then none
    else
      match r1.dropWhile (fun c => isWordChar c) with
      | c1 :: c2 :: r2 =>
        if c1 = rbrace ∧ c2 = lbrace then
          let v := r2.takeWhile (fun c => c != rbrace)
          match r2.dropWhile (fun c => c != rbrace) with
          | c3 :: rest => if c3 = rbrace then some (n, v, rest) else none
          | [] => none
        else none
      | _ => none

/-- The `regex.exec` loop of `extractVariables`: leftmost, non-overlapping
matches, in text order.  `fuel` only forces termination; each step consumes
at least one character, so fuel equal to the text length is enough. -/
def scanAux : Nat → List Char → List (List Char × List Char)
  | 0, _ => []
  | _ + 1, [] => []
  | fuel + 1, c :: cs =>
    match matchMarkerAt (c :: cs) with
    | some (n, v, rest) => (n, v) :: scanAux fuel rest
    | none => scanAux fuel cs

/-- All matches of the discovery regex over `t`, in text order. -/
def extractScan (t : List Char) : List (List Char × List Char) := scanAux t.length t

/-- JS object assignment `variables[name] = value`: update the value of an
existing key in place, otherwise append the new entry. -/
def upsert : List (List Char × List Char) → List Char → List Char →
    List (List Char × List Char)
  | [], n, v => [(n, v)]
  | (m, w) :: rest, n, v =>
    if m = n then (m, v) :: rest else (m, w) :: upsert rest n v

/-- Fold the match list into a record: later occurrences of a name
overwrite the recorded value. -/
def dedupScan (l : List (List Char × List Char)) : List (List Char × List Char) :=
  l.foldl (fun acc nv => upsert acc nv.1 nv.2) []

/-- `extractVariables` of the processor, on raw text. -/
def extractVariablesText (t : List Char) : List (List Char × List Char) :=
  dedupScan (extractScan t)

/-- First-match association lookup (reading a record field). -/
def lookupA (n : List Char) : List (List Char × List Char) → Option (List Char)
  | [] => none
  | (m, v) :: rest => if m = n then some v else lookupA n rest

/-- JS `GetSubstitution` for a replacement string with no capture groups:
`$$` emits a dollar, `$&` emits the matched text, dollar-backquote emits the
part of the subject before the match, dollar-quote the part after it;
everything else is literal. -/
def subst (matched before after : List Char) : List Char → List Char
  | [] => []
  | [c] => [c]
  | c :: d :: r =>
    if c = dollar then
      if d = dollar then dollar :: subst matched before after r
      else if d = '&' then matched ++ subst matched before after r
      else if d = bquote then before ++ subst matched before after r
      else if d = squote then after ++ subst matched before after r
      else c :: subst matched before after (d :: r)
    else c :: subst matched before after (d :: r)

/-- One attempt of the fill pattern `\newcommand\{\\name\}\{[^}]*\}` (name
escaped, hence literal) at the start of `l`.  Returns the matched text and
the text after the match. -/
def matchFillAt (name : List Char) (l : List Char) :
    Option (List Char × List Char) :=
  match dropPre (fillPre name) l with
  | none => none
  | some r =>
    let v := r.takeWhile (fun c => c != rbrace)
    match r.dropWhile (fun c => c != rbrace) with
    | c :: rest =>
      if c = rbrace then some (fillPre name ++ v ++ [rbrace], rest) else none
    | [] => none

/-- The global `String.replace` loop for one `(name, value)` entry.
`before` is the part of the subject string already passed (needed by the
dollar-backquote replacement pattern). -/
def goRepl (name value : List Char) : Nat → List Char → List Char → List Char
  | 0, _, cur => cur
  | _ + 1, _, [] => []
  | fuel + 1, before, c :: cs =>
    match matchFillAt name (c :: cs) with
    | some (m, rest) =>
      subst m before rest (repl name value) ++ goRepl name value fuel (before ++ m) rest
    | none => c :: goRepl name value fuel (before ++ [c]) cs

/-- `output.replace(regex, replacement)` with the global fill pattern for
`name` and replacement `\newcommand{\name}{value}`. -/
def jsReplaceAll (name value t : List Char) : List Char :=
  goRepl name value t.length [] t

/-- `fillTemplate` on raw text: fold the per-name global replace over the
entries of the record, in order. -/
def fillTemplateText (t : List Char) (data : List (List Char × List Char)) :
    List Char :=
  data.foldl (fun out nv => jsReplaceAll nv.1 nv.2 out) t

/-- `toBuffer` converts the filled text to a UTF-8 buffer; byte-for-byte it
carries exactly the character sequence, so it is modelled as the text
itself. -/
def toBufferText (t : List Char) : List Char := t

/-- `process`: fill the template, then convert to a buffer. -/
def processText (t : List Char) (data : List (List Char × List Char)) :
    List Char :=
  toBufferText (fillTemplateText t data)

/-- The processor class: it stores the template content received at
construction time and nothing else. -/
structure LatexTemplateProcessor where
  content : List Char

namespace LatexTemplateProcessor

/-- `fromBinary`: decode the buffer and store it as the content. -/
def fromBinary (buffer : List Char) : LatexTemplateProcessor := ⟨buffer⟩

/-- Method `extractVariables` reads `this.content`. -/
def extractVariables (p : LatexTemplateProcessor) : List (List Char × List Char) :=
  extractVariablesText p.content

/-- Method `fillTemplate` reads `this.content` and returns the rewritten
text. -/
def fillTemplate (p : LatexTemplateProcessor) (data : List (List Char × List Char)) :
    List Char :=
  fillTemplateText p.content data

/-- Method `process` composes `fillTemplate` and `toBuffer`. -/
def process (p : LatexTemplateProcessor) (data : List (List Char × List Char)) :
    List Char :=
  toBufferText (p.fillTemplate data)

/-- A call of `fillTemplate` as a state transformer on the instance: the
method body never assigns to `this.content`, so the resulting state is the
receiver unchanged. -/
def fillTemplateCall (p : LatexTemplateProcessor)
    (data : List (List Char × List Char)) :
    List Char × LatexTemplateProcessor :=
  (p.fillTemplate data, p)

/-- A call of `process` as a state transformer on the instance. -/
def processCall (p : LatexTemplateProcessor)
    (data : List (List Char × List Char)) :
    List Char × LatexTemplateProcessor :=
  (p.process data, p)

end LatexTemplateProcessor

/-- A template shape used by several theorems: an alternation of separator
text and variable-definition markers.  `chain a segs` starts with `a`; each
segment contributes one marker followed by its separator. -/
def chain : List Char → List (List Char × List Char × List Char) → List Char
  | a, [] => a
  | a, s :: rest => a ++ mark s.1 s.2.1 ++ chain s.2.2 rest

/-- A marker name as produced by discovery: nonempty and made of word
characters only. -/
abbrev wcName (n : List Char) : Prop := n ≠ [] ∧ ∀ c ∈ n, isWordChar c = true

/-- A name that does not collide with the marker syntax: free of
backslashes, braces and dollars (it may contain regex-special characters
such as dots or stars). -/
abbrev nameOk (n : List Char) : Prop :=
  bslash ∉ n ∧ lbrace ∉ n ∧ rbrace ∉ n ∧ dollar ∉ n

/-- Conditions on one chain segment under which the fill scan treats its
marker atomically: syntax-free name, brace- and backslash-free value,
backslash-free separator. -/
abbrev segOk (s : List Char × List Char × List Char) : Prop :=
  nameOk s.1 ∧ rbrace ∉ s.2.1 ∧ bslash ∉ s.2.1 ∧ bslash ∉ s.2.2

/-- Conditions on one chain segment under which the discovery scan parses
its marker: word-character name, brace-free value, backslash-free
separator. -/
abbrev exSeg (s : List Char × List Char × List Char) : Prop :=
  wcName s.1 ∧ rbrace ∉ s.2.1 ∧ bslash ∉ s.2.2

/-- The value a marker named `n` with current value `v` carries after all
entries of `d` have been applied in order: the last entry for `n` wins. -/
def valAfter (d : List (List Char × List Char)) (n v : List Char) : List Char :=
  d.foldl (fun acc nw => if n = nw.1 then nw.2 else acc) v

/-- A data entry is clean when its value contains no closing brace, no
backslash and no dollar. -/
abbrev cleanVal (w : List Char) : Prop := rbrace ∉ w ∧ bslash ∉ w ∧ dollar ∉ w

/-! Concrete templates used by counterexamples and witnesses. -/

/-- The text `\newcommand{\b` (a marker prefix occurring inside a value). -/
def valNB : List Char := header ++ "b".data

/-- The template `\newcommand{\a}{\newcommand{\b}{\newcommand{\c}{u}`:
discovery sees a marker named `a` (with value `\newcommand{\b`) and a marker
named `c` (with value `u`), but the fill pattern for the unrelated name `b`
also matches here, overlapping the `c` marker. -/
def tNested : List Char :=
  mark "a".data valNB ++ lbrace :: (header ++ "c".data) ++ [rbrace, lbrace, 'u', rbrace]

/-- The template `\newcommand{\a}{\newcommand{\b}{\newcommand{\b}{u}`:
discovery sees markers `a` and `b`, and filling `b` swallows the `b` marker. -/
def tSwallow : List Char :=
  mark "a".data valNB ++ lbrace :: valNB ++ [rbrace, lbrace, 'u', rbrace]

/-- A repeating-section directive line (it contains no marker and no
backslash). -/
def tDirective : List Char := "% REPEAT_ROW(items) $VAR_DESC & $VAR_PRICE".data

/-- The JSON text for a one-record array. -/
def jsonRow : List Char :=
  '[' :: lbrace :: '"' :: 'd' :: 'e' :: 's' :: 'c' :: '"' :: ':' :: '"' :: 'X' ::
    '"' :: rbrace :: ']' :: []

section Lemmas

theorem wcName_nameOk {n : List Char} (h : wcName n) : nameOk n := by
  refine ⟨?_, ?_, ?_, ?_⟩ <;> intro hmem <;>
    have hw := h.2 _ hmem <;> revert hw <;> decide

theorem dropPre_self_append (p l : List Char) : dropPre p (p ++ l) = some l := by
  induction p with
  | nil => rfl
  | cons c ps ih => simp [dropPre, ih]

theorem dropPre_eq_append {p l r : List Char} (h : dropPre p l = some r) :
    l = p ++ r := by
  induction p generalizing l with
  | nil =>
    simp only [dropPre, Option.some.injEq] at h
    simp [h]
  | cons c ps ih =>
    cases l with
    | nil => simp [dropPre] at h
    | cons d ds =>
      by_cases hc : c = d
      · subst hc
        simp only [dropPre, if_pos rfl] at h
        simpa using ih h
      · simp [dropPre, hc] at h

theorem dropPre_append_both (a p l : List Char) :
    dropPre (a ++ p) (a ++ l) = dropPre p l := by
  induction a with
  | nil => rfl
  | cons c asl ih => simp [dropPre, ih]

theorem hasPre_self_append (p l : List Char) : hasPre p (p ++ l) = true := by
  induction p with
  | nil => rfl
  | cons c ps ih => simp [hasPre, ih]

theorem takeWhile_run {p : Char → Bool} {u : List Char}
    (hu : ∀ c ∈ u, p c = true) {d : Char} (hd : p d = false) (l : List Char) :
    (u ++ d :: l).takeWhile p = u := by
  induction u with
  | nil => simp [List.takeWhile_cons, hd]
  | cons c cs ih =>
    have hc : p c = true := hu c (by simp)
    simp only [List.cons_append, List.takeWhile_cons, hc, if_true]
    simp only [List.cons.injEq, true_and]
    exact ih (fun x hx => hu x (by simp [hx]))

theorem dropWhile_run {p : Char → Bool} {u : List Char}
    (hu : ∀ c ∈ u, p c = true) {d : Char} (hd : p d = false) (l : List Char) :
    (u ++ d :: l).dropWhile p = d :: l := by
  induction u with
  | nil => simp [List.dropWhile_cons, hd]
  | cons c cs ih =>
    have hc : p c = true := hu c (by simp)
    simp only [List.cons_append, List.dropWhile_cons, hc, if_true]
    exact ih (fun x hx => hu x (by simp [hx]))

theorem value_run_all {v : List Char} (hv : rbrace ∉ v) :
    ∀ c ∈ v, (c != rbrace) = true := by
  intro c hc
  have : c ≠ rbrace := fun he => hv (he ▸ hc)
  simpa using this

theorem matchMarkerAt_mark {n v : List Char} (hn : wcName n) (hv : rbrace ∉ v)
    (rest : List Char) :
    matchMarkerAt (mark n v ++ rest) = some (n, v, rest) := by
  have e : mark n v ++ rest =
      header ++ (n ++ rbrace :: lbrace :: (v ++ rbrace :: rest)) := by
    simp [mark, fillPre]
  have hw : ∀ c ∈ n, isWordChar c = true := hn.2
  have hwrb : isWordChar rbrace = false := by decide
  have hbrb : (rbrace != rbrace) = false := by decide
  rw [e]
  simp only [matchMarkerAt, dropPre_self_append]
  rw [takeWhile_run hw hwrb, dropWhile_run hw hwrb]
  simp only [if_neg hn.1, and_self, if_true]
  rw [takeWhile_run (value_run_all hv) hbrb, dropWhile_run (value_run_all hv) hbrb]
  simp

theorem matchMarkerAt_not_bslash {c : Char} (hc : c ≠ bslash) (l : List Char) :
    matchMarkerAt (c :: l) = none := by
  unfold matchMarkerAt
  have : dropPre header (c :: l) = none := by
    have hne : bslash ≠ c := fun he => hc he.symm
    simp [header, dropPre, hne]
  rw [this]

theorem matchMarkerAt_shape {l n v rest : List Char}
    (h : matchMarkerAt l = some (n, v, rest)) :
    l = header ++ n ++ rbrace :: lbrace :: v ++ rbrace :: rest := by
  unfold matchMarkerAt at h
  split at h
  · exact absurd h (by simp)
  next r1 hd =>
    have hl : l = header ++ r1 := dropPre_eq_append hd
    simp only at h
    split at h
    · exact absurd h (by simp)
    next hne =>
      split at h
      next c1 c2 r2 hdw =>
        split at h
        next hbr =>
          split at h
          next c3 rest2 hdw2 =>
            split at h
            next hc3 =>
              simp only [Option.some.injEq, Prod.mk.injEq] at h
              obtain ⟨h1, h2, h3⟩ := h
              have hr1 : r1 = n ++ (c1 :: c2 :: r2) := by
                rw [← h1, ← hdw]
                exact (List.takeWhile_append_dropWhile _ _).symm
              have hr2 : r2 = v ++ (c3 :: rest2) := by
                rw [← h2, ← hdw2]
                exact (List.takeWhile_append_dropWhile _ _).symm
              rw [hl, hr1, hr2, hbr.1, hbr.2, hc3, h3]
              simp
            · exact absurd h (by simp)
          · exact absurd h (by simp)
        · exact absurd h (by simp)
      · exact absurd h (by simp)

theorem matchMarkerAt_length {l n v rest : List Char}
    (h : matchMarkerAt l = some (n, v, rest)) : rest.length < l.length := by
  have e := matchMarkerAt_shape h
  have : l.length = header.length + n.length + (v.length + (rest.length + 2)) + 1 := by
    rw [e]; simp [List.length_append]; omega
  have hh : header.length = 13 := by decide
  omega

theorem scanAux_nil (f : Nat) : scanAux f [] = [] := by
  cases f <;> rfl

theorem scanAux_cons_none {c : Char} {cs : List Char}
    (hm : matchMarkerAt (c :: cs) = none) (f : Nat) :
    scanAux (f + 1) (c :: cs) = scanAux f cs := by
  simp [scanAux, hm]

theorem scanAux_cons_some {c : Char} {cs n v rest : List Char}
    (hm : matchMarkerAt (c :: cs) = some (n, v, rest)) (f : Nat) :
    scanAux (f + 1) (c :: cs) = (n, v) :: scanAux f rest := by
  simp [scanAux, hm]

theorem scanAux_fuel :
    ∀ f g l, l.length ≤ f → l.length ≤ g → scanAux f l = scanAux g l := by
  intro f
  induction f with
  | zero =>
    intro g l hf hg
    have : l = [] := List.length_eq_zero.mp (Nat.le_zero.mp hf)
    rw [this, scanAux_nil, scanAux_nil]
  | succ f ih =>
    intro g l hf hg
    cases l with
    | nil => rw [scanAux_nil, scanAux_nil]
    | cons c cs =>
      cases g with
      | zero => simp at hg
      | succ g =>
        simp only [List.length_cons] at hf hg
        cases hm : matchMarkerAt (c :: cs) with
        | none =>
          rw [scanAux_cons_none hm f, scanAux_cons_none hm g]
          exact ih g cs (by omega) (by omega)
        | some nvr =>
          obtain ⟨n, v, rest⟩ := nvr
          have hlt := matchMarkerAt_length hm
          simp only [List.length_cons] at hlt
          rw [scanAux_cons_some hm f, scanAux_cons_some hm g]
          rw [ih g rest (by omega) (by omega)]

theorem scanAux_skip :
    ∀ pre l f g, (∀ c ∈ pre, c ≠ bslash) → (pre ++ l).length ≤ f →
      l.length ≤ g → scanAux f (pre ++ l) = scanAux g l := by
  intro pre
  induction pre with
  | nil => intro l f g _ hf hg; exact scanAux_fuel f g l (by simpa using hf) hg
  | cons c pre ih =>
    intro l f g hb hf hg
    cases f with
    | zero => simp at hf
    | succ f =>
      have hc : c ≠ bslash := hb c (by simp)
      rw [List.cons_append, scanAux_cons_none (matchMarkerAt_not_bslash hc _) f]
      refine ih l f g (fun x hx => hb x (by simp [hx])) ?_ hg
      simpa using Nat.le_of_succ_le_succ (by simpa using hf)

theorem mark_ne_nil (n v : List Char) : mark n v ++ rest ≠ [] := by
  simp [mark, fillPre, header]

theorem scanAux_mark {n v : List Char} (hn : wcName n) (hv : rbrace ∉ v)
    (rest : List Char) (f g : Nat) (hf : (mark n v ++ rest).length ≤ f)
    (hg : rest.length ≤ g) :
    scanAux f (mark n v ++ rest) = (n, v) :: scanAux g rest := by
  cases e : mark n v ++ rest with
  | nil => exact absurd e (mark_ne_nil n v)
  | cons c cs =>
    cases f with
    | zero => rw [e] at hf; simp at hf
    | succ f =>
      have hm : matchMarkerAt (c :: cs) = some (n, v, rest) := by
        rw [← e]; exact matchMarkerAt_mark hn hv rest
      rw [scanAux_cons_some hm f]
      have hlt : rest.length < (c :: cs).length := matchMarkerAt_length hm
      simp only [List.length_cons] at hlt
      rw [e] at hf
      simp only [List.length_cons] at hf
      refine congrArg _ (scanAux_fuel f g rest (by omega) hg)

theorem goRepl_nil (n v : List Char) (f : Nat) (b : List Char) :
    goRepl n v f b [] = [] := by
  cases f <;> rfl

theorem matchFillAt_not_bslash {c : Char} (hc : c ≠ bslash) (n l : List Char) :
    matchFillAt n (c :: l) = none := by
  unfold matchFillAt
  have : dropPre (fillPre n) (c :: l) = none := by
    have hne : bslash ≠ c := fun he => hc he.symm
    simp [fillPre, header, dropPre, hne]
  rw [this]

theorem matchFillAt_fill {n w : List Char} (hw : rbrace ∉ w) (rest : List Char) :
    matchFillAt n (mark n w ++ rest) = some (mark n w, rest) := by
  have e : mark n w ++ rest = fillPre n ++ (w ++ rbrace :: rest) := by
    simp [mark]
  have hbrb : (rbrace != rbrace) = false := by decide
  rw [e]
  simp only [matchFillAt, dropPre_self_append]
  rw [takeWhile_run (value_run_all hw) hbrb, dropWhile_run (value_run_all hw) hbrb]
  simp [mark]

theorem matchFillAt_shape {n l m rest : List Char}
    (h : matchFillAt n l = some (m, rest)) :
    ∃ w, m = mark n w ∧ l = mark n w ++ rest := by
  unfold matchFillAt at h
  split at h
  · exact absurd h (by simp)
  next r hd =>
    have hl : l = fillPre n ++ r := dropPre_eq_append hd
    simp only at h
    split at h
    next c rest2 hdw =>
      split at h
      next hc =>
        simp only [Option.some.injEq, Prod.mk.injEq] at h
        obtain ⟨h1, h2⟩ := h
        have hr : r = r.takeWhile (fun c => c != rbrace) ++ (c :: rest2) := by
          conv_lhs => rw [← List.takeWhile_append_dropWhile (fun c => c != rbrace) r]
          rw [hdw]
        generalize hww : r.takeWhile (fun c => c != rbrace) = w at h1 hr
        refine ⟨w, ?_, ?_⟩
        · simp [← h1, mark]
        · rw [hl, hr, hc, h2]; simp [mark]
      · exact absurd h (by simp)
    · exact absurd h (by simp)

theorem mark_length_pos (n v : List Char) : 0 < (mark n v).length := by
  simp [mark, fillPre, header]

theorem matchFillAt_length {n l m rest : List Char}
    (h : matchFillAt n l = some (m, rest)) : rest.length < l.length := by
  obtain ⟨w, hm, hl⟩ := matchFillAt_shape h
  have := mark_length_pos n w
  rw [hl]
  simp only [List.length_append]
  omega

theorem goRepl_cons_none {n v : List Char} {c : Char} {cs : List Char}
    (hm : matchFillAt n (c :: cs) = none) (f : Nat) (b : List Char) :
    goRepl n v (f + 1) b (c :: cs) = c :: goRepl n v f (b ++ [c]) cs := by
  simp [goRepl, hm]

theorem goRepl_cons_some {n v : List Char} {c : Char} {cs m rest : List Char}
    (hm : matchFillAt n (c :: cs) = some (m, rest)) (f : Nat) (b : List Char) :
    goRepl n v (f + 1) b (c :: cs) =
      subst m b rest (repl n v) ++ goRepl n v f (b ++ m) rest := by
  simp [goRepl, hm]

theorem goRepl_fuel (n v : List Char) :
    ∀ f g b l, l.length ≤ f → l.length ≤ g →
      goRepl n v f b l = goRepl n v g b l := by
  intro f
  induction f with
  | zero =>
    intro g b l hf hg
    have : l = [] := List.length_eq_zero.mp (Nat.le_zero.mp hf)
    rw [this, goRepl_nil, goRepl_nil]
  | succ f ih =>
    intro g b l hf hg
    cases l with
    | nil => rw [goRepl_nil, goRepl_nil]
    | cons c cs =>
      cases g with
      | zero => simp at hg
      | succ g =>
        simp only [List.length_cons] at hf hg
        cases hm : matchFillAt n (c :: cs) with
        | none =>
          rw [goRepl_cons_none hm f, goRepl_cons_none hm g]
          rw [ih g (b ++ [c]) cs (by omega) (by omega)]
        | some mr =>
          obtain ⟨m, rest⟩ := mr
          have hlt := matchFillAt_length hm
          simp only [List.length_cons] at hlt
          rw [goRepl_cons_some hm f, goRepl_cons_some hm g]
          rw [ih g (b ++ m) rest (by omega) (by omega)]

theorem goRepl_skip (n v : List Char) :
    ∀ pre l f g b, (∀ c ∈ pre, c ≠ bslash) → (pre ++ l).length ≤ f →
      l.length ≤ g → goRepl n v f b (pre ++ l) = pre ++ goRepl n v g (b ++ pre) l := by
  intro pre
  induction pre with
  | nil =>
    intro l f g b _ hf hg
    simpa using goRepl_fuel n v f g b l (by simpa using hf) hg
  | cons c pre ih =>
    intro l f g b hb hf hg
    cases f with
    | zero => simp at hf
    | succ f =>
      have hc : c ≠ bslash := hb c (by simp)
      rw [List.cons_append, goRepl_cons_none (matchFillAt_not_bslash hc n _) f]
      rw [ih l f g (b ++ [c]) (fun x hx => hb x (by simp [hx]))
        (by simpa using Nat.le_of_succ_le_succ (by simpa using hf)) hg]
      simp

theorem subst_nodollar {r : List Char} (h : ∀ c ∈ r, c ≠ dollar)
    (m b a : List Char) : subst m b a r = r := by
  induction r with
  | nil => rfl
  | cons c r ih =>
    cases r with
    | nil => rfl
    | cons d r2 =>
      have hc : c ≠ dollar := h c (by simp)
      simp only [subst, if_neg hc]
      exact congrArg _ (ih (fun x hx => h x (by simp [hx])))

theorem dropPre_run_none :
    ∀ n2 n1 x y, n1 ≠ n2 → rbrace ∉ n1 → rbrace ∉ n2 →
      dropPre (n2 ++ rbrace :: x) (n1 ++ rbrace :: y) = none := by
  intro n2
  induction n2 with
  | nil =>
    intro n1 x y hne h1 _
    cases n1 with
    | nil => exact absurd rfl hne
    | cons c n1 =>
      have hc : c ≠ rbrace := fun he => h1 (by simp [he])
      have : rbrace ≠ c := fun he => hc he.symm
      simp [dropPre, this]
  | cons c n2 ih =>
    intro n1 x y hne h1 h2
    have hc : c ≠ rbrace := fun he => h2 (by simp [he])
    cases n1 with
    | nil => simp [dropPre, hc]
    | cons d n1 =>
      by_cases hcd : c = d
      · subst hcd
        simp only [List.cons_append, dropPre, if_pos rfl]
        refine ih n1 x y (fun he => hne (by rw [he])) ?_ ?_
        · exact fun hm => h1 (by simp [hm])
        · exact fun hm => h2 (by simp [hm])
      · simp [dropPre, hcd]

theorem dropPre_brace_blocked :
    ∀ q1 m q2 l, rbrace ∉ q1 → lbrace ∉ q1 → lbrace ∉ m →
      dropPre (q1 ++ lbrace :: q2) (m ++ rbrace :: l) = none := by
  intro q1
  induction q1 with
  | nil =>
    intro m q2 l _ _ hm
    cases m with
    | nil =>
      have : lbrace ≠ rbrace := by decide
      simp [dropPre, this]
    | cons c m =>
      have hc : lbrace ≠ c := fun he => hm (by simp [he.symm])
      simp [dropPre, hc]
  | cons d q1 ih =>
    intro m q2 l hq1 hq2 hm
    cases m with
    | nil =>
      have hd : d ≠ rbrace := fun he => hq1 (by simp [he])
      simp [dropPre, hd]
    | cons c m =>
      by_cases hdc : d = c
      · subst hdc
        simp only [List.cons_append, dropPre, if_pos rfl]
        refine ih m q2 l (fun h => hq1 (by simp [h])) (fun h => hq2 (by simp [h]))
          (fun h => hm (by simp [h]))
      · simp [dropPre, hdc]

theorem matchFillAt_mark_none {n1 n2 v1 : List Char} (hne : n1 ≠ n2)
    (h1 : rbrace ∉ n1) (h2 : rbrace ∉ n2) (rest : List Char) :
    matchFillAt n2 (mark n1 v1 ++ rest) = none := by
  have e1 : fillPre n2 = header ++ (n2 ++ rbrace :: [lbrace]) := by
    simp [fillPre]
  have e2 : mark n1 v1 ++ rest =
      header ++ (n1 ++ rbrace :: (lbrace :: v1 ++ rbrace :: rest)) := by
    simp [mark, fillPre]
  unfold matchFillAt
  rw [e1, e2, dropPre_append_both, dropPre_run_none n2 n1 _ _ hne h1 h2]

theorem matchFillAt_inner_none {n m : List Char} (hm : lbrace ∉ m)
    (l : List Char) :
    matchFillAt n (bslash :: (m ++ rbrace :: l)) = none := by
  have e1 : fillPre n =
      bslash :: ("newcommand".data ++ lbrace :: (bslash :: (n ++ [rbrace, lbrace]))) := by
    simp [fillPre, header]
  unfold matchFillAt
  rw [e1]
  have : dropPre
      (bslash :: ("newcommand".data ++ lbrace :: (bslash :: (n ++ [rbrace, lbrace]))))
      (bslash :: (m ++ rbrace :: l)) =
      dropPre ("newcommand".data ++ lbrace :: (bslash :: (n ++ [rbrace, lbrace])))
        (m ++ rbrace :: l) := by
    simp [dropPre]
  rw [this, dropPre_brace_blocked _ _ _ _ (by decide) (by decide) hm]

theorem goRepl_skip_mark {n1 n2 v1 w : List Char} (hne : n1 ≠ n2)
    (hrb1 : rbrace ∉ n1) (hlb1 : lbrace ∉ n1) (hbs1 : bslash ∉ n1)
    (hrb2 : rbrace ∉ n2) (hbv : bslash ∉ v1) (rest : List Char) (f g : Nat)
    (b : List Char) (hf : (mark n1 v1 ++ rest).length ≤ f)
    (hg : rest.length ≤ g) :
    goRepl n2 w f b (mark n1 v1 ++ rest) =
      mark n1 v1 ++ goRepl n2 w g (b ++ mark n1 v1) rest := by
  have eA : mark n1 v1 ++ rest =
      bslash :: (("newcommand".data ++ [lbrace]) ++
        (bslash :: ((n1 ++ rbrace :: lbrace :: (v1 ++ [rbrace])) ++ rest))) := by
    simp [mark, fillPre, header]
  cases f with
  | zero =>
    exfalso
    have := mark_length_pos n1 v1
    rw [List.length_append] at hf
    omega
  | succ f =>
    have hm0 : matchFillAt n2 (mark n1 v1 ++ rest) = none :=
      matchFillAt_mark_none hne hrb1 hrb2 rest
    rw [eA] at hm0
    rw [eA, goRepl_cons_none hm0 f]
    have hlenf : (("newcommand".data ++ [lbrace]) ++
        (bslash :: ((n1 ++ rbrace :: lbrace :: (v1 ++ [rbrace])) ++ rest))).length ≤ f := by
      have := hf
      rw [eA] at this
      simpa using Nat.le_of_succ_le_succ (by simpa using this)
    rw [goRepl_skip n2 w _ _ f
      ((bslash :: ((n1 ++ rbrace :: lbrace :: (v1 ++ [rbrace])) ++ rest)).length)
      _ (by decide) hlenf (Nat.le_refl _)]
    have hm1 : matchFillAt n2
        (bslash :: ((n1 ++ rbrace :: lbrace :: (v1 ++ [rbrace])) ++ rest)) = none := by
      have e : (n1 ++ rbrace :: lbrace :: (v1 ++ [rbrace])) ++ rest =
          n1 ++ rbrace :: (lbrace :: (v1 ++ rbrace :: rest)) := by simp
      rw [e]
      exact matchFillAt_inner_none hlb1 _
    rw [List.length_cons, goRepl_cons_none hm1]
    have hbsfree : ∀ c ∈ (n1 ++ rbrace :: lbrace :: (v1 ++ [rbrace])), c ≠ bslash := by
      intro c hc he
      subst he
      have e : rbrace :: lbrace :: (v1 ++ [rbrace]) =
          [rbrace, lbrace] ++ (v1 ++ [rbrace]) := rfl
      rw [e] at hc
      rcases List.mem_append.mp hc with h | h
      · exact hbs1 h
      rcases List.mem_append.mp h with h | h
      · exact absurd h (by decide)
      rcases List.mem_append.mp h with h | h
      · exact hbv h
      · exact absurd h (by decide)
    rw [goRepl_skip n2 w _ _ _ g _ hbsfree (Nat.le_refl _) hg]
    simp [mark, fillPre, header]

theorem repl_nodollar {n v : List Char} (hn : dollar ∉ n) (hv : dollar ∉ v) :
    ∀ c ∈ repl n v, c ≠ dollar := by
  have h1 : dollar ∉ header := by decide
  have h2 : dollar ∉ [rbrace, lbrace] := by decide
  have h3 : dollar ∉ [rbrace] := by decide
  intro c hc he
  subst he
  rw [repl, fillPre] at hc
  simp only [List.append_assoc] at hc
  rcases List.mem_append.mp hc with h | h
  · exact h1 h
  rcases List.mem_append.mp h with h | h
  · exact hn h
  rcases List.mem_append.mp h with h | h
  · exact h2 h
  rcases List.mem_append.mp h with h | h
  · exact hv h
  · exact h3 h

theorem repl_eq_mark (n v : List Char) : repl n v = mark n v := rfl

theorem goRepl_mark_self {n v w : List Char} (hv : rbrace ∉ v) (hdn : dollar ∉ n)
    (hdw : dollar ∉ w) (rest : List Char) (f g : Nat) (b : List Char)
    (hf : (mark n v ++ rest).length ≤ f) (hg : rest.length ≤ g) :
    goRepl n w f b (mark n v ++ rest) = mark n w ++ goRepl n w g (b ++ mark n v) rest := by
  cases e : mark n v ++ rest with
  | nil => exact absurd e (mark_ne_nil n v)
  | cons c cs =>
    cases f with
    | zero => rw [e] at hf; simp at hf
    | succ f =>
      have hm : matchFillAt n (c :: cs) = some (mark n v, rest) := by
        rw [← e]; exact matchFillAt_fill hv rest
      have hlt : rest.length < (c :: cs).length := matchFillAt_length hm
      simp only [List.length_cons] at hlt
      rw [e] at hf
      simp only [List.length_cons] at hf
      rw [goRepl_cons_some hm f b]
      rw [subst_nodollar (repl_nodollar hdn hdw), repl_eq_mark]
      rw [goRepl_fuel n w f g (b ++ mark n v) rest (by omega) hg]

theorem fill_chain_one {n w : List Char} (hn : nameOk n) (hdw : dollar ∉ w) :
    ∀ segs a f b, bslash ∉ a → (∀ s ∈ segs, segOk s) → (chain a segs).length ≤ f →
      goRepl n w f b (chain a segs) =
        chain a (segs.map (fun s => if s.1 = n then (s.1, w, s.2.2) else s)) := by
  intro segs
  induction segs with
  | nil =>
    intro a f b ha _ hf
    have habs : ∀ c ∈ a, c ≠ bslash := fun c hc he => ha (he ▸ hc)
    rw [chain, ← List.append_nil a]
    rw [goRepl_skip n w a [] f 0 b habs (by simpa [chain] using hf) (Nat.le_refl _)]
    rw [goRepl_nil]
    simp [chain]
  | cons s rest ih =>
    intro a f b ha hseg hf
    obtain ⟨m, v, sep⟩ := s
    have hsOk : segOk (m, v, sep) := hseg _ (by simp)
    have hrOk : ∀ x ∈ rest, segOk x := fun x hx => hseg x (by simp [hx])
    have habs : ∀ c ∈ a, c ≠ bslash := fun c hc he => ha (he ▸ hc)
    have e : chain a ((m, v, sep) :: rest) = a ++ (mark m v ++ chain sep rest) := by
      simp [chain]
    rw [e] at hf ⊢
    rw [goRepl_skip n w a _ f (mark m v ++ chain sep rest).length b habs hf
      (Nat.le_refl _)]
    by_cases hmn : m = n
    · subst hmn
      rw [goRepl_mark_self hsOk.2.1 hn.2.2.2 hdw (chain sep rest) _
        (chain sep rest).length (b ++ a) (Nat.le_refl _) (Nat.le_refl _)]
      rw [ih sep (chain sep rest).length (b ++ a ++ mark m v) hsOk.2.2.2 hrOk
        (Nat.le_refl _)]
      simp [chain]
    · rw [goRepl_skip_mark hmn hsOk.1.2.2.1 hsOk.1.2.1 hsOk.1.1 hn.2.2.1
        hsOk.2.2.1 (chain sep rest) _ (chain sep rest).length (b ++ a)
        (Nat.le_refl _) (Nat.le_refl _)]
      rw [ih sep (chain sep rest).length (b ++ a ++ mark m v) hsOk.2.2.2 hrOk
        (Nat.le_refl _)]
      simp [chain, hmn]

theorem jsReplaceAll_chain {n w : List Char} (hn : nameOk n) (hdw : dollar ∉ w)
    {a : List Char} {segs : List (List Char × List Char × List Char)}
    (ha : bslash ∉ a) (hseg : ∀ s ∈ segs, segOk s) :
    jsReplaceAll n w (chain a segs) =
      chain a (segs.map (fun s => if s.1 = n then (s.1, w, s.2.2) else s)) := by
  exact fill_chain_one hn hdw segs a _ [] ha hseg (Nat.le_refl _)

theorem valAfter_nil (n v : List Char) : valAfter [] n v = v := rfl

theorem valAfter_cons (m w : List Char) (d : List (List Char × List Char))
    (n v : List Char) :
    valAfter ((m, w) :: d) n v = valAfter d n (if n = m then w else v) := rfl

theorem fillTemplateText_chain :
    ∀ (d : List (List Char × List Char)) segs a, bslash ∉ a →
      (∀ s ∈ segs, segOk s) → (∀ nw ∈ d, nameOk nw.1) →
      (∀ nw ∈ d, cleanVal nw.2) →
      fillTemplateText (chain a segs) d =
        chain a (segs.map (fun s => (s.1, valAfter d s.1 s.2.1, s.2.2))) := by
  intro d
  induction d with
  | nil =>
    intro segs a _ _ _ _
    show chain a segs = _
    congr 1
    conv_lhs => rw [← List.map_id segs]
    refine List.map_congr_left ?_
    intro s _
    simp [valAfter]
  | cons nw d ih =>
    intro segs a ha hseg hnames hvals
    obtain ⟨n, w⟩ := nw
    have hn : nameOk n := hnames (n, w) (by simp)
    have hw : cleanVal w := hvals (n, w) (by simp)
    have step : fillTemplateText (chain a segs) ((n, w) :: d) =
        fillTemplateText (jsReplaceAll n w (chain a segs)) d := rfl
    have hseg1 : ∀ s ∈ segs.map (fun s => if s.1 = n then (s.1, w, s.2.2) else s),
        segOk s := by
      intro s hs
      simp only [List.mem_map] at hs
      obtain ⟨s0, hs0, he⟩ := hs
      have h0 := hseg s0 hs0
      by_cases hsn : s0.1 = n
      · rw [← he, if_pos hsn]
        exact ⟨h0.1, hw.1, hw.2.1, h0.2.2.2⟩
      · rw [← he, if_neg hsn]
        exact h0
    rw [step, jsReplaceAll_chain hn hw.2.2 ha hseg]
    rw [ih _ a ha hseg1 (fun x hx => hnames x (by simp [hx]))
      (fun x hx => hvals x (by simp [hx]))]
    rw [List.map_map]
    congr 1
    refine List.map_congr_left ?_
    intro s _
    by_cases hsn : s.1 = n
    · simp [Function.comp, hsn, valAfter_cons]
    · simp [Function.comp, hsn, valAfter_cons]

theorem scanAux_chain :
    ∀ segs a f, bslash ∉ a → (∀ s ∈ segs, exSeg s) → (chain a segs).length ≤ f →
      scanAux f (chain a segs) = segs.map (fun s => (s.1, s.2.1)) := by
  intro segs
  induction segs with
  | nil =>
    intro a f ha _ hf
    have habs : ∀ c ∈ a, c ≠ bslash := fun c hc he => ha (he ▸ hc)
    rw [chain, ← List.append_nil a]
    rw [scanAux_skip a [] f 0 habs (by simpa [chain] using hf) (Nat.le_refl _)]
    simp [scanAux_nil]
  | cons s rest ih =>
    intro a f ha hseg hf
    obtain ⟨m, v, sep⟩ := s
    have hsOk : exSeg (m, v, sep) := hseg (m, v, sep) (by simp)
    have hrOk : ∀ x ∈ rest, exSeg x := fun x hx => hseg x (by simp [hx])
    have habs : ∀ c ∈ a, c ≠ bslash := fun c hc he => ha (he ▸ hc)
    have e : chain a ((m, v, sep) :: rest) = a ++ (mark m v ++ chain sep rest) := by
      simp [chain]
    rw [e] at hf ⊢
    rw [scanAux_skip a _ f (mark m v ++ chain sep rest).length habs hf (Nat.le_refl _)]
    rw [scanAux_mark hsOk.1 hsOk.2.1 (chain sep rest) _ (chain sep rest).length
      (Nat.le_refl _) (Nat.le_refl _)]
    rw [ih sep (chain sep rest).length hsOk.2.2 hrOk (Nat.le_refl _)]
    simp

theorem extractScan_chain {a : List Char}
    {segs : List (List Char × List Char × List Char)} (ha : bslash ∉ a)
    (hseg : ∀ s ∈ segs, exSeg s) :
    extractScan (chain a segs) = segs.map (fun s => (s.1, s.2.1)) :=
  scanAux_chain segs a _ ha hseg (Nat.le_refl _)

theorem upsert_of_fresh :
    ∀ (acc : List (List Char × List Char)) n v, (∀ p ∈ acc, p.1 ≠ n) →
      upsert acc n v = acc ++ [(n, v)] := by
  intro acc
  induction acc with
  | nil => intro n v _; rfl
  | cons p acc ih =>
    intro n v h
    obtain ⟨m, w⟩ := p
    have hm : m ≠ n := h (m, w) (by simp)
    simp only [upsert, if_neg hm, List.cons_append, List.cons.injEq, true_and]
    exact ih n v (fun q hq => h q (by simp [hq]))

theorem foldl_upsert_of_nodup :
    ∀ (l acc : List (List Char × List Char)),
      ((acc ++ l).map Prod.fst).Nodup →
      l.foldl (fun acc nv => upsert acc nv.1 nv.2) acc = acc ++ l := by
  intro l
  induction l with
  | nil => intro acc _; simp
  | cons nv l ih =>
    intro acc h
    obtain ⟨n, v⟩ := nv
    have hfresh : ∀ p ∈ acc, p.1 ≠ n := by
      intro p hp he
      have : ¬ (acc.map Prod.fst).Disjoint (((n, v) :: l).map Prod.fst) := by
        intro hdis
        exact hdis (List.mem_map_of_mem Prod.fst hp) (by simp [he])
      rw [List.map_append] at h
      exact this (List.disjoint_of_nodup_append h)
    have step : ((n, v) :: l).foldl (fun acc nv => upsert acc nv.1 nv.2) acc =
        l.foldl (fun acc nv => upsert acc nv.1 nv.2) (upsert acc n v) := rfl
    rw [step, upsert_of_fresh acc n v hfresh, ih (acc ++ [(n, v)]) (by simpa using h)]
    simp

theorem dedupScan_of_nodup {l : List (List Char × List Char)}
    (h : (l.map Prod.fst).Nodup) : dedupScan l = l := by
  have := foldl_upsert_of_nodup l [] (by simpa using h)
  simpa [dedupScan] using this

theorem upsert_keys (acc : List (List Char × List Char)) (n v : List Char) :
    (upsert acc n v).map Prod.fst =
      if n ∈ acc.map Prod.fst then acc.map Prod.fst
      else acc.map Prod.fst ++ [n] := by
  induction acc with
  | nil => simp [upsert]
  | cons p acc ih =>
    obtain ⟨m, w⟩ := p
    by_cases hm : m = n
    · subst hm
      simp [upsert]
    · have hnm : ¬ n = m := fun he => hm he.symm
      simp only [upsert, if_neg hm, List.map_cons]
      rw [ih]
      by_cases hin : n ∈ acc.map Prod.fst
      · simp [hin, hnm]
      · simp [hin, hnm]

theorem foldl_upsert_keys_nodup :
    ∀ (l acc : List (List Char × List Char)), ((acc.map Prod.fst).Nodup) →
      (((l.foldl (fun acc nv => upsert acc nv.1 nv.2) acc)).map Prod.fst).Nodup := by
  intro l
  induction l with
  | nil => intro acc h; exact h
  | cons nv l ih =>
    intro acc h
    refine ih (upsert acc nv.1 nv.2) ?_
    rw [upsert_keys]
    by_cases hin : nv.1 ∈ acc.map Prod.fst
    · rw [if_pos hin]; exact h
    · rw [if_neg hin]
      rw [List.nodup_append]
      exact ⟨h, by simp, by intro a ha hb; simp at hb; exact hin (hb ▸ ha)⟩

theorem lookupA_app (k : List Char) :
    ∀ x y : List (List Char × List Char),
      lookupA k (x ++ y) =
        (match lookupA k x with
          | some v => some v
          | none => lookupA k y) := by
  intro x
  induction x with
  | nil => intro y; simp [lookupA]
  | cons p x ih =>
    intro y
    obtain ⟨m, w⟩ := p
    by_cases hm : m = k
    · simp [lookupA, hm]
    · simp only [List.cons_append, lookupA, if_neg hm]
      exact ih y

theorem lookupA_upsert (k : List Char) :
    ∀ (acc : List (List Char × List Char)) n v,
      lookupA k (upsert acc n v) = if n = k then some v else lookupA k acc := by
  intro acc
  induction acc with
  | nil =>
    intro n v
    by_cases hn : n = k <;> simp [upsert, lookupA, hn]
  | cons p acc ih =>
    intro n v
    obtain ⟨m, w⟩ := p
    by_cases hm : m = n
    · subst hm
      by_cases hk : m = k <;> simp [upsert, lookupA, hk]
    · simp only [upsert, if_neg hm, lookupA]
      by_cases hk : m = k
      · subst hk
        have : ¬ n = m := fun he => hm he.symm
        simp [lookupA, this]
      · simp only [if_neg hk]
        rw [ih]

theorem lookupA_foldl_upsert (k : List Char) :
    ∀ (l acc : List (List Char × List Char)),
      lookupA k (l.foldl (fun acc nv => upsert acc nv.1 nv.2) acc) =
        (match lookupA k l.reverse with
          | some v => some v
          | none => lookupA k acc) := by
  intro l
  induction l with
  | nil => intro acc; simp [lookupA]
  | cons nv l ih =>
    intro acc
    obtain ⟨n, v⟩ := nv
    have step : ((n, v) :: l).foldl (fun acc nv => upsert acc nv.1 nv.2) acc =
        l.foldl (fun acc nv => upsert acc nv.1 nv.2) (upsert acc n v) := rfl
    rw [step, ih (upsert acc n v)]
    have er : ((n, v) :: l).reverse = l.reverse ++ [(n, v)] := by simp
    rw [er, lookupA_app]
    cases lookupA k l.reverse with
    | some u => simp
    | none =>
      simp only
      rw [lookupA_upsert]
      by_cases hk : n = k <;> simp [lookupA, hk]

theorem upsert_length_le (acc : List (List Char × List Char)) (n v : List Char) :
    acc.length ≤ (upsert acc n v).length := by
  induction acc with
  | nil => simp [upsert]
  | cons p acc ih =>
    obtain ⟨m, w⟩ := p
    by_cases hm : m = n <;> simp only [upsert, if_pos, if_neg, hm] <;> simp
    exact ih

theorem foldl_upsert_length_le :
    ∀ (l acc : List (List Char × List Char)),
      acc.length ≤ (l.foldl (fun acc nv => upsert acc nv.1 nv.2) acc).length := by
  intro l
  induction l with
  | nil => intro acc; exact Nat.le_refl _
  | cons nv l ih =>
    intro acc
    exact Nat.le_trans (upsert_length_le acc nv.1 nv.2) (ih (upsert acc nv.1 nv.2))

theorem dedupScan_eq_nil_iff (l : List (List Char × List Char)) :
    dedupScan l = [] ↔ l = [] := by
  constructor
  · intro h
    cases l with
    | nil => rfl
    | cons nv l =>
      exfalso
      have step : dedupScan (nv :: l) =
          l.foldl (fun acc nv => upsert acc nv.1 nv.2) [(nv.1, nv.2)] := rfl
      have hlen := foldl_upsert_length_le l [(nv.1, nv.2)]
      rw [step] at h
      rw [h] at hlen
      simp at hlen
  · intro h; rw [h]; rfl

theorem lookupA_none_of_not_mem {n : List Char} :
    ∀ {d : List (List Char × List Char)}, n ∉ d.map Prod.fst →
      lookupA n d = none := by
  intro d
  induction d with
  | nil => intro _; rfl
  | cons p d ih =>
    intro h
    obtain ⟨m, w⟩ := p
    have hm : m ≠ n := by
      intro he
      exact h (by simp [he])
    simp only [lookupA, if_neg hm]
    exact ih (fun hx => h (by simp at hx ⊢; exact Or.inr hx))

theorem lookupA_of_mem_nodup {p : List Char × List Char} :
    ∀ {d : List (List Char × List Char)}, p ∈ d → (d.map Prod.fst).Nodup →
      lookupA p.1 d = some p.2 := by
  intro d
  induction d with
  | nil => intro h _; simp at h
  | cons q d ih =>
    intro hp hnd
    obtain ⟨m, w⟩ := q
    simp only [List.map_cons, List.nodup_cons] at hnd
    rcases List.mem_cons.mp hp with he | hmem
    · rw [he]
      simp [lookupA]
    · have hm : m ≠ p.1 := by
        intro hcontra
        exact hnd.1 (hcontra ▸ List.mem_map_of_mem Prod.fst hmem)
      simp only [lookupA, if_neg hm]
      exact ih hmem hnd.2

theorem valAfter_absent :
    ∀ (d : List (List Char × List Char)) n v, lookupA n d = none →
      valAfter d n v = v := by
  intro d
  induction d with
  | nil => intro n v _; rfl
  | cons p d ih =>
    intro n v h
    obtain ⟨m, w⟩ := p
    by_cases hm : m = n
    · simp [lookupA, hm] at h
    · have hnm : ¬ n = m := fun he => hm he.symm
      rw [valAfter_cons, if_neg hnm]
      simp only [lookupA, if_neg hm] at h
      exact ih n v h

theorem valAfter_found_nodup :
    ∀ (d : List (List Char × List Char)) n v w, (d.map Prod.fst).Nodup →
      lookupA n d = some w → valAfter d n v = w := by
  intro d
  induction d with
  | nil => intro n v w _ h; simp [lookupA] at h
  | cons p d ih =>
    intro n v w hnd h
    obtain ⟨m, u⟩ := p
    simp only [List.map_cons, List.nodup_cons] at hnd
    by_cases hm : m = n
    · subst hm
      simp [lookupA] at h
      rw [valAfter_cons, if_pos rfl]
      have hnone : lookupA m d = none :=
        lookupA_none_of_not_mem hnd.1
      rw [valAfter_absent d m u hnone, h]
    · have hnm : ¬ n = m := fun he => hm he.symm
      rw [valAfter_cons, if_neg hnm]
      simp only [lookupA, if_neg hm] at h
      exact ih n v w hnd.2 h

theorem valAfter_rb_free :
    ∀ (d : List (List Char × List Char)) n v, rbrace ∉ v →
      (∀ nw ∈ d, rbrace ∉ nw.2) → rbrace ∉ valAfter d n v := by
  intro d
  induction d with
  | nil => intro n v hv _; exact hv
  | cons p d ih =>
    intro n v hv hd
    obtain ⟨m, u⟩ := p
    rw [valAfter_cons]
    refine ih n _ ?_ (fun x hx => hd x (by simp [hx]))
    by_cases hnm : n = m
    · rw [if_pos hnm]
      exact hd (m, u) (by simp)
    · rw [if_neg hnm]
      exact hv

theorem matchFillAt_hasPre {n l m rest : List Char}
    (h : matchFillAt n l = some (m, rest)) : hasPre (fillPre n) l = true := by
  obtain ⟨w, hm, hl⟩ := matchFillAt_shape h
  rw [hl, mark]
  have e : fillPre n ++ w ++ [rbrace] ++ rest = fillPre n ++ (w ++ [rbrace] ++ rest) := by
    simp
  rw [e]
  exact hasPre_self_append _ _

theorem goRepl_no_occur {n w : List Char} :
    ∀ t f b, t.length ≤ f → containsPat (fillPre n) t = false →
      goRepl n w f b t = t := by
  intro t
  induction t with
  | nil => intro f b _ _; exact goRepl_nil n w f b
  | cons c cs ih =>
    intro f b hf hocc
    have hocc2 : hasPre (fillPre n) (c :: cs) = false ∧
        containsPat (fillPre n) cs = false := by
      have e : containsPat (fillPre n) (c :: cs) =
          (hasPre (fillPre n) (c :: cs) || containsPat (fillPre n) cs) := rfl
      rw [e] at hocc
      exact ⟨by revert hocc; cases hasPre (fillPre n) (c :: cs) <;> simp,
        by revert hocc; cases containsPat (fillPre n) cs <;> simp⟩
    cases f with
    | zero => simp at hf
    | succ f =>
      cases hm : matchFillAt n (c :: cs) with
      | some mr =>
        exfalso
        obtain ⟨m, rest⟩ := mr
        rw [matchFillAt_hasPre hm] at hocc2
        exact absurd hocc2.1 (by simp)
      | none =>
        rw [goRepl_cons_none hm f b]
        simp only [List.length_cons] at hf
        rw [ih f (b ++ [c]) (by omega) hocc2.2]

theorem jsReplaceAll_no_occur {n w t : List Char}
    (h : containsPat (fillPre n) t = false) : jsReplaceAll n w t = t :=
  goRepl_no_occur t t.length [] (Nat.le_refl _) h

theorem goRepl_all_skip {n w : List Char} :
    ∀ t f b, t.length ≤ f → (∀ c ∈ t, c ≠ bslash) → goRepl n w f b t = t := by
  intro t
  induction t with
  | nil => intro f b _ _; exact goRepl_nil n w f b
  | cons c cs ih =>
    intro f b hf hb
    cases f with
    | zero => simp at hf
    | succ f =>
      rw [goRepl_cons_none (matchFillAt_not_bslash (hb c (by simp)) n cs) f b]
      simp only [List.length_cons] at hf
      rw [ih f (b ++ [c]) (by omega) (fun x hx => hb x (by simp [hx]))]

theorem jsReplaceAll_no_bslash {n w t : List Char} (h : bslash ∉ t) :
    jsReplaceAll n w t = t :=
  goRepl_all_skip t t.length [] (Nat.le_refl _) (fun c hc he => h (he ▸ hc))

theorem fillTemplateText_no_bslash {t : List Char} (h : bslash ∉ t) :
    ∀ d, fillTemplateText t d = t := by
  intro d
  induction d with
  | nil => rfl
  | cons nv d ih =>
    have step : fillTemplateText t (nv :: d) =
        fillTemplateText (jsReplaceAll nv.1 nv.2 t) d := rfl
    rw [step, jsReplaceAll_no_bslash h, ih]

theorem scanAux_all_skip :
    ∀ t f, t.length ≤ f → (∀ c ∈ t, c ≠ bslash) → scanAux f t = [] := by
  intro t
  induction t with
  | nil => intro f _ _; exact scanAux_nil f
  | cons c cs ih =>
    intro f hf hb
    cases f with
    | zero => simp at hf
    | succ f =>
      rw [scanAux_cons_none (matchMarkerAt_not_bslash (hb c (by simp)) cs) f]
      simp only [List.length_cons] at hf
      rw [ih f (by omega) (fun x hx => hb x (by simp [hx]))]

theorem extractScan_no_bslash {t : List Char} (h : bslash ∉ t) :
    extractScan t = [] :=
  scanAux_all_skip t t.length (Nat.le_refl _) (fun c hc he => h (he ▸ hc))

end Lemmas

theorem fillTemplateText_single (n w t : List Char) :
    fillTemplateText t [(n, w)] = jsReplaceAll n w t := rfl

theorem processText_eq_fill (t : List Char) (d : List (List Char × List Char)) :
    processText t d = fillTemplateText t d := rfl

/-! The claims. -/

/-- C1 counterexample: on the template `\newcommand{\a}{1}\newcommand{\a}{2}`
discovery returns the mapping `a ↦ 2` (last occurrence wins), and rendering
the template with exactly that mapping rewrites the first marker as well, so
the output is not byte-identical to the input. -/
theorem c1_counterexample :
    extractVariablesText (mark "a".data "1".data ++ mark "a".data "2".data) =
      [("a".data, "2".data)] ∧
    fillTemplateText (mark "a".data "1".data ++ mark "a".data "2".data)
        [("a".data, "2".data)] ≠
      mark "a".data "1".data ++ mark "a".data "2".data := by decide

/-- C1 (amended): for a template that alternates backslash-free separator
text with marker occurrences whose names are distinct word-character names
and whose values contain no closing brace, no backslash and no dollar,
rendering the template with the mapping returned by variable discovery is a
no-op: `fillTemplateText t (extractVariablesText t) = t`. -/
theorem c1_roundtrip (a0 : List Char)
    (segs : List (List Char × List Char × List Char)) (ha : bslash ∉ a0)
    (hseg : ∀ s ∈ segs, wcName s.1 ∧ rbrace ∉ s.2.1 ∧ bslash ∉ s.2.1 ∧
      dollar ∉ s.2.1 ∧ bslash ∉ s.2.2)
    (hnodup : (segs.map (fun s => s.1)).Nodup) :
    fillTemplateText (chain a0 segs) (extractVariablesText (chain a0 segs)) =
      chain a0 segs := by
  have hex : ∀ s ∈ segs, exSeg s :=
    fun s hs => ⟨(hseg s hs).1, (hseg s hs).2.1, (hseg s hs).2.2.2.2⟩
  have hkeys : ((segs.map (fun s => (s.1, s.2.1))).map Prod.fst).Nodup := by
    rw [List.map_map]
    simpa [Function.comp] using hnodup
  have e1 : extractVariablesText (chain a0 segs) =
      segs.map (fun s => (s.1, s.2.1)) := by
    rw [extractVariablesText, extractScan_chain ha hex, dedupScan_of_nodup hkeys]
  rw [e1]
  rw [fillTemplateText_chain (segs.map (fun s => (s.1, s.2.1))) segs a0 ha
    (fun s hs => ⟨wcName_nameOk (hseg s hs).1, (hseg s hs).2.1,
      (hseg s hs).2.2.1, (hseg s hs).2.2.2.2⟩)
    ?names ?vals]
  case names =>
    intro nw hnw
    simp only [List.mem_map] at hnw
    obtain ⟨s, hs, he⟩ := hnw
    rw [← he]
    exact wcName_nameOk (hseg s hs).1
  case vals =>
    intro nw hnw
    simp only [List.mem_map] at hnw
    obtain ⟨s, hs, he⟩ := hnw
    rw [← he]
    exact ⟨(hseg s hs).2.1, (hseg s hs).2.2.1, (hseg s hs).2.2.2.1⟩
  congr 1
  conv_rhs => rw [← List.map_id segs]
  refine List.map_congr_left ?_
  intro s hs
  have hmem : (s.1, s.2.1) ∈ segs.map (fun s => (s.1, s.2.1)) :=
    List.mem_map_of_mem _ hs
  have hlook : lookupA s.1 (segs.map (fun s => (s.1, s.2.1))) = some s.2.1 :=
    lookupA_of_mem_nodup hmem hkeys
  have hval : valAfter (segs.map (fun s => (s.1, s.2.1))) s.1 s.2.1 = s.2.1 :=
    valAfter_found_nodup _ s.1 s.2.1 s.2.1 hkeys hlook
  rw [hval]
  simp

/-- C1 witness: the round trip is the identity on a concrete two-marker
template. -/
theorem c1_witness :
    fillTemplateText
        (chain [] [("a".data, "1".data, " ".data), ("b".data, "2".data, [])])
        (extractVariablesText
          (chain [] [("a".data, "1".data, " ".data), ("b".data, "2".data, [])])) =
      chain [] [("a".data, "1".data, " ".data), ("b".data, "2".data, [])] :=
  c1_roundtrip [] _ (by decide) (by decide) (by decide)

/-- C2 counterexample: rendering a marker with new value `A & B_C` inserts
the text verbatim, not the escaped form `A \& B\_C` claimed by the spec
(the code performs no escaping at all). -/
theorem c2_counterexample :
    fillTemplateText (mark "x".data "0".data) [("x".data, "A & B_C".data)] =
      mark "x".data "A & B_C".data ∧
    mark "x".data "A & B_C".data ≠ mark "x".data "A \\& B\\_C".data := by decide

/-- C2 (amended): `fillTemplate` performs no escaping and no scalar
encoding: values are plain text and the new value is inserted verbatim into
the marker (for any dollar-free value, since the dollar is interpreted by
the JS replacement-string machinery, not escaped either). -/
theorem c2_verbatim (n v w : List Char) (hn : wcName n) (hv : rbrace ∉ v)
    (hbv : bslash ∉ v) (hw : dollar ∉ w) :
    fillTemplateText (mark n v) [(n, w)] = mark n w := by
  have e : mark n v = chain [] [(n, v, [])] := by simp [chain]
  rw [e, fillTemplateText_single, jsReplaceAll_chain (wcName_nameOk hn) hw
    (by simp) (fun s hs => by
      simp only [List.mem_singleton] at hs
      rw [hs]
      exact ⟨wcName_nameOk hn, hv, hbv, by simp⟩)]
  simp [chain]

/-- C2 witness: the value `A & B_C` is inserted unchanged. -/
theorem c2_witness :
    fillTemplateText (mark "x".data "0".data) [("x".data, "A & B_C".data)] =
      mark "x".data "A & B_C".data :=
  c2_verbatim "x".data "0".data "A & B_C".data (by decide) (by decide)
    (by decide) (by decide)

/-- C3 counterexample: the template
`\newcommand{\a}{\newcommand{\b}{\newcommand{\c}{u}` contains two marker
occurrences (names `a` and `c`), but substituting the brace-, backslash- and
dollar-free value `v` for the name `b` leaves only one marker occurrence:
scalar substitution does not preserve the number of marker occurrences. -/
theorem c3_counterexample :
    (extractScan tNested).length = 2 ∧
    (extractScan (fillTemplateText tNested [("b".data, "v".data)])).length = 1 := by
  decide

/-- C3 (amended): for a template made of two marker occurrences of the same
word-character name with brace- and backslash-free values, separated by
backslash-free text, substituting one brace-, backslash- and dollar-free new
value updates both occurrences to that same value, and the number of marker
occurrences (two) is preserved. -/
theorem c3_multiplicity (n v1 v2 sep w : List Char) (hn : wcName n)
    (h1 : rbrace ∉ v1) (hb1 : bslash ∉ v1) (h2 : rbrace ∉ v2)
    (hb2 : bslash ∉ v2) (hsep : bslash ∉ sep) (hw : rbrace ∉ w)
    (hbw : bslash ∉ w) (hdw : dollar ∉ w) :
    fillTemplateText (chain [] [(n, v1, sep), (n, v2, [])]) [(n, w)] =
      chain [] [(n, w, sep), (n, w, [])] ∧
    (extractScan (fillTemplateText (chain [] [(n, v1, sep), (n, v2, [])])
        [(n, w)])).length =
      (extractScan (chain [] [(n, v1, sep), (n, v2, [])])).length := by
  have hsegs : ∀ s ∈ [(n, v1, sep), (n, v2, ([] : List Char))], segOk s := by
    intro s hs
    simp only [List.mem_cons, List.mem_singleton] at hs
    rcases hs with h | h | h
    · rw [h]; exact ⟨wcName_nameOk hn, h1, hb1, hsep⟩
    · rw [h]; exact ⟨wcName_nameOk hn, h2, hb2, by simp⟩
    · simp at h
  have efill : fillTemplateText (chain [] [(n, v1, sep), (n, v2, [])]) [(n, w)] =
      chain [] [(n, w, sep), (n, w, [])] := by
    rw [fillTemplateText_single,
      jsReplaceAll_chain (wcName_nameOk hn) hdw (by simp) hsegs]
    simp
  refine ⟨efill, ?_⟩
  rw [efill]
  rw [extractScan_chain (by simp) (fun s hs => by
    simp only [List.mem_cons, List.mem_singleton] at hs
    rcases hs with h | h | h
    · rw [h]; exact ⟨hn, hw, hsep⟩
    · rw [h]; exact ⟨hn, hw, by simp⟩
    · simp at h)]
  rw [extractScan_chain (by simp) (fun s hs => by
    simp only [List.mem_cons, List.mem_singleton] at hs
    rcases hs with h | h | h
    · rw [h]; exact ⟨hn, h1, hsep⟩
    · rw [h]; exact ⟨hn, h2, by simp⟩
    · simp at h)]
  simp

/-- C3 witness: both occurrences of `price` are updated and the marker count
stays two. -/
theorem c3_witness :
    fillTemplateText
        (chain [] [("price".data, "400".data, " ".data), ("price".data, "500".data, [])])
        [("price".data, "1500".data)] =
      chain [] [("price".data, "1500".data, " ".data), ("price".data, "1500".data, [])] ∧
    (extractScan (fillTemplateText
        (chain [] [("price".data, "400".data, " ".data), ("price".data, "500".data, [])])
        [("price".data, "1500".data)])).length =
      (extractScan
        (chain [] [("price".data, "400".data, " ".data), ("price".data, "500".data, [])])).length :=
  c3_multiplicity "price".data "400".data "500".data " ".data "1500".data
    (by decide) (by decide) (by decide) (by decide) (by decide) (by decide)
    (by decide) (by decide) (by decide)

/-- C4 counterexample: in the template
`\newcommand{\a}{\newcommand{\b}{\newcommand{\c}{u}` the mapping name `b`
has no corresponding marker (discovery reports only `a` and `c`), yet
rendering with the entry `b ↦ v` changes the output; moreover the marker
named `c`, which is not a key of the mapping, is destroyed rather than left
byte-unchanged. -/
theorem c4_counterexample :
    extractVariablesText tNested = [("a".data, valNB), ("c".data, "u".data)] ∧
    fillTemplateText tNested [("b".data, "v".data)] ≠ tNested ∧
    extractVariablesText (fillTemplateText tNested [("b".data, "v".data)]) =
      [("a".data, valNB)] := by decide

/-- C4 (amended): (1) a mapping entry whose fill pattern
`\newcommand{\name}{` occurs nowhere in the template has no effect on the
output; (2) for a template of two markers with distinct word-character
names, brace- and backslash-free values and a backslash-free separator,
filling the second name leaves the first marker byte-unchanged. -/
theorem c4_unmapped_preserved :
    (∀ t n w, containsPat (fillPre n) t = false →
      fillTemplateText t [(n, w)] = t) ∧
    (∀ a0 n1 v1 sep n2 v2 w, wcName n1 → wcName n2 → n1 ≠ n2 → bslash ∉ a0 →
      rbrace ∉ v1 → bslash ∉ v1 → rbrace ∉ v2 → bslash ∉ v2 → bslash ∉ sep →
      dollar ∉ w →
      fillTemplateText (chain a0 [(n1, v1, sep), (n2, v2, [])]) [(n2, w)] =
        chain a0 [(n1, v1, sep), (n2, w, [])]) := by
  constructor
  · intro t n w h
    rw [fillTemplateText_single, jsReplaceAll_no_occur h]
  · intro a0 n1 v1 sep n2 v2 w hn1 hn2 hne ha h1 hb1 h2 hb2 hsep hdw
    rw [fillTemplateText_single,
      jsReplaceAll_chain (wcName_nameOk hn2) hdw ha (fun s hs => by
        simp only [List.mem_cons, List.mem_singleton] at hs
        rcases hs with h | h | h
        · rw [h]; exact ⟨wcName_nameOk hn1, h1, hb1, hsep⟩
        · rw [h]; exact ⟨wcName_nameOk hn2, h2, hb2, by simp⟩
        · simp at h)]
    simp [hne]

/-- C4 witness: an entry with no corresponding marker leaves a template
unchanged, and filling `name2` leaves the `name1` marker untouched. -/
theorem c4_witness :
    fillTemplateText "plain text, no markers".data [("name2".data, "z".data)] =
      "plain text, no markers".data ∧
    fillTemplateText
        (chain [] [("name1".data, "1".data, " ".data), ("name2".data, "2".data, [])])
        [("name2".data, "9".data)] =
      chain [] [("name1".data, "1".data, " ".data), ("name2".data, "9".data, [])] :=
  ⟨c4_unmapped_preserved.1 "plain text, no markers".data "name2".data "z".data
      (by decide),
    c4_unmapped_preserved.2 [] "name1".data "1".data " ".data "name2".data
      "2".data "9".data (by decide) (by decide) (by decide) (by decide)
      (by decide) (by decide) (by decide) (by decide) (by decide) (by decide)⟩

/-- C5: for every template text, the discovered record has no duplicate
keys; the value recorded for a name is the value of the last matching
marker occurrence (the first hit in the reversed match list); the record is
empty exactly when the scan finds no marker; and on a syntactically foreign
template (here: any text without a backslash) discovery returns the empty
record rather than failing. -/
theorem c5_discovery_record (t : List Char) :
    ((extractVariablesText t).map Prod.fst).Nodup ∧
    (∀ n, lookupA n (extractVariablesText t) = lookupA n (extractScan t).reverse) ∧
    (extractVariablesText t = [] ↔ extractScan t = []) ∧
    (bslash ∉ t → extractVariablesText t = []) := by
  refine ⟨?_, ?_, ?_, ?_⟩
  · exact foldl_upsert_keys_nodup (extractScan t) [] (by simp)
  · intro n
    have h := lookupA_foldl_upsert n (extractScan t) []
    rw [extractVariablesText, dedupScan, h]
    cases lookupA n (extractScan t).reverse with
    | some v => simp
    | none => simp [lookupA]
  · exact dedupScan_eq_nil_iff (extractScan t)
  · intro h
    rw [extractVariablesText, extractScan_no_bslash h]
    rfl

/-- C5 witness: on a concrete foreign template the record is empty, and on
a template with a repeated name the last value wins with no duplicate
keys. -/
theorem c5_witness :
    extractVariablesText "% foreign template, no markers".data = [] ∧
    lookupA "a".data
        (extractVariablesText (mark "a".data "one".data ++ mark "a".data "two".data)) =
      lookupA "a".data
        (extractScan (mark "a".data "one".data ++ mark "a".data "two".data)).reverse ∧
    ((extractVariablesText (mark "a".data "one".data ++ mark "a".data "two".data)).map
      Prod.fst).Nodup :=
  ⟨(c5_discovery_record "% foreign template, no markers".data).2.2.2 (by decide),
    (c5_discovery_record (mark "a".data "one".data ++ mark "a".data "two".data)).2.1
      "a".data,
    (c5_discovery_record (mark "a".data "one".data ++ mark "a".data "two".data)).1⟩

/-- C6 counterexample: processing a section directive line with a
one-record data list leaves the text byte-identical — the directive line is
not replaced by a generated row and is not removed. -/
theorem c6_counterexample :
    processText tDirective [("items".data, jsonRow)] = tDirective ∧
    containsPat "REPEAT_ROW".data (processText tDirective [("items".data, jsonRow)]) =
      true := by decide

/-- C6 (amended): the processor performs no repeating-section expansion:
any backslash-free template — in particular any directive line — is
returned byte-unchanged by `process` for every value mapping, so a
directive with N data records emits zero generated rows and the directive
line is never removed. -/
theorem c6_no_expansion (t : List Char) (d : List (List Char × List Char))
    (ht : bslash ∉ t) : processText t d = t := by
  rw [processText_eq_fill, fillTemplateText_no_bslash ht]

/-- C6 witness: a directive line passes through `process` unchanged. -/
theorem c6_witness :
    processText tDirective [("items".data, "x".data), ("desc".data, "y".data)] =
      tDirective :=
  c6_no_expansion tDirective [("items".data, "x".data), ("desc".data, "y".data)]
    (by decide)

/-- C7 counterexample: a value that parses as a JSON array (the text `[1]`,
whose leading character is the list-open delimiter) is not excluded from
scalar substitution: it is substituted into the marker `items` like any
other string, so the output differs from the input. -/
theorem c7_counterexample :
    fillTemplateText (mark "items".data "old".data) [("items".data, "[1]".data)] =
      mark "items".data "[1]".data ∧
    fillTemplateText (mark "items".data "old".data) [("items".data, "[1]".data)] ≠
      mark "items".data "old".data := by decide

/-- C7 (amended): the processor performs no array/scalar partitioning:
every mapping entry participates in scalar substitution, including an entry
whose value starts with the list-open delimiter `[`; a mixed mapping with
an array-shaped value and a plain scalar value substitutes both into their
markers. -/
theorem c7_no_partition (a0 n1 v1 sep n2 v2 warr wscal : List Char)
    (hn1 : wcName n1) (hn2 : wcName n2) (hne : n1 ≠ n2) (ha : bslash ∉ a0)
    (h1 : rbrace ∉ v1) (hb1 : bslash ∉ v1) (h2 : rbrace ∉ v2)
    (hb2 : bslash ∉ v2) (hsep : bslash ∉ sep) (hwa : cleanVal warr)
    (hws : cleanVal wscal) (harr : warr.head? = some '[') :
    fillTemplateText (chain a0 [(n1, v1, sep), (n2, v2, [])])
        [(n1, warr), (n2, wscal)] =
      chain a0 [(n1, warr, sep), (n2, wscal, [])] := by
  have hne2 : ¬ n2 = n1 := fun he => hne he.symm
  rw [fillTemplateText_chain [(n1, warr), (n2, wscal)]
    [(n1, v1, sep), (n2, v2, [])] a0 ha
    (fun s hs => by
      simp only [List.mem_cons, List.mem_singleton] at hs
      rcases hs with h | h | h
      · rw [h]; exact ⟨wcName_nameOk hn1, h1, hb1, hsep⟩
      · rw [h]; exact ⟨wcName_nameOk hn2, h2, hb2, by simp⟩
      · simp at h)
    (fun nw hnw => by
      simp only [List.mem_cons, List.mem_singleton] at hnw
      rcases hnw with h | h | h
      · rw [h]; exact wcName_nameOk hn1
      · rw [h]; exact wcName_nameOk hn2
      · simp at h)
    (fun nw hnw => by
      simp only [List.mem_cons, List.mem_singleton] at hnw
      rcases hnw with h | h | h
      · rw [h]; exact hwa
      · rw [h]; exact hws
      · simp at h)]
  simp [valAfter_cons, valAfter_nil, hne, hne2]

/-- C7 witness: the JSON-array-shaped value `[1]` and the scalar `9` are
both substituted, with no partitioning and no cross-interference. -/
theorem c7_witness :
    fillTemplateText
        (chain [] [("items".data, "old".data, " ".data), ("total".data, "0".data, [])])
        [("items".data, "[1]".data), ("total".data, "9".data)] =
      chain [] [("items".data, "[1]".data, " ".data), ("total".data, "9".data, [])] :=
  c7_no_partition [] "items".data "old".data " ".data "total".data "0".data
    "[1]".data "9".data (by decide) (by decide) (by decide) (by decide)
    (by decide) (by decide) (by decide) (by decide) (by decide)
    (by decide) (by decide) (by decide)

/-- C8: the name taken from the mapping is matched literally (`escapeRegex`
makes every regex-special character in it literal): on a chain of markers
whose names are free of backslashes, braces and dollars — dots, stars,
plus signs and the like are allowed — filling one name rewrites exactly
the markers whose name segment is character-for-character equal to that
name, and no marker with any other name. -/
theorem c8_literal_name (a0 : List Char)
    (segs : List (List Char × List Char × List Char)) (n w : List Char)
    (ha : bslash ∉ a0) (hseg : ∀ s ∈ segs, segOk s) (hn : nameOk n)
    (hw : dollar ∉ w) :
    fillTemplateText (chain a0 segs) [(n, w)] =
      chain a0 (segs.map (fun s => if s.1 = n then (s.1, w, s.2.2) else s)) := by
  rw [fillTemplateText_single, jsReplaceAll_chain hn hw ha hseg]

/-- C8 witness: with markers named `a.b` and `axb` — the unescaped regex
`a.b` would match both — the mapping key `a.b` rewrites only the marker
whose name is exactly `a.b`. -/
theorem c8_witness :
    fillTemplateText
        (chain [] [("a.b".data, "1".data, " ".data), ("axb".data, "2".data, [])])
        [("a.b".data, "9".data)] =
      chain [] [("a.b".data, "9".data, " ".data), ("axb".data, "2".data, [])] := by
  rw [c8_literal_name [] [("a.b".data, "1".data, " ".data), ("axb".data, "2".data, [])]
    "a.b".data "9".data (by decide)
    (by intro s hs
        simp only [List.mem_cons, List.mem_singleton] at hs
        rcases hs with h | h | h
        · rw [h]; exact ⟨by decide, by decide, by decide, by decide⟩
        · rw [h]; exact ⟨by decide, by decide, by decide, by simp⟩
        · simp at h)
    (by decide) (by decide)]
  decide

/-- C9: the processor instance is read-only after construction: a call of
`fillTemplate` (or `process`) returns derived text and leaves the stored
state unchanged, so after any sequence of render calls the instance's
`content` field is byte-identical to the text given at construction, and
the text returned by a call is computed from that original content. -/
theorem c9_content_immutable (p : LatexTemplateProcessor)
    (calls : List (List (List Char × List Char))) :
    (calls.foldl (fun st d => (st.fillTemplateCall d).2) p).content = p.content ∧
    (calls.foldl (fun st d => (st.processCall d).2) p).content = p.content ∧
    (∀ d, (p.fillTemplateCall d).1 = fillTemplateText p.content d) ∧
    (∀ d, (p.processCall d).1 = processText p.content d) := by
  refine ⟨?_, ?_, fun d => rfl, fun d => rfl⟩
  · have h : ∀ (l : List (List (List Char × List Char)))
        (q : LatexTemplateProcessor),
        l.foldl (fun st d => (st.fillTemplateCall d).2) q = q := by
      intro l
      induction l with
      | nil => intro q; rfl
      | cons d l ih => intro q; exact ih q
    rw [h calls p]
  · have h : ∀ (l : List (List (List Char × List Char)))
        (q : LatexTemplateProcessor),
        l.foldl (fun st d => (st.processCall d).2) q = q := by
      intro l
      induction l with
      | nil => intro q; rfl
      | cons d l ih => intro q; exact ih q
    rw [h calls p]

/-- C10 counterexample: in the template
`\newcommand{\a}{\newcommand{\b}{\newcommand{\b}{u}` the name `b` is a key
of both the discovered record (with value `u`) and the mapping `b ↦ v`
(whose value contains no closing brace, backslash or dollar), yet after
rendering, discovery no longer reports `b` at all — read-back returns
nothing instead of `v`. -/
theorem c10_counterexample :
    lookupA "b".data (extractVariablesText tSwallow) = some "u".data ∧
    cleanVal "v".data ∧
    lookupA "b".data
      (extractVariablesText (fillTemplateText tSwallow [("b".data, "v".data)])) =
      none := by decide

/-- C10 (amended): read-back holds on chain templates: for a template
alternating backslash-free separators with markers having distinct
word-character names and brace-, backslash-free values, and a mapping with
distinct syntax-free keys and brace-, backslash-, dollar-free values, every
name that is both a marker name and a mapping key reads back from the
rendered template as exactly the mapping's value. -/
theorem c10_readback (a0 : List Char)
    (segs : List (List Char × List Char × List Char))
    (d : List (List Char × List Char)) (n w : List Char) (ha : bslash ∉ a0)
    (hseg : ∀ s ∈ segs, wcName s.1 ∧ rbrace ∉ s.2.1 ∧ bslash ∉ s.2.1 ∧
      bslash ∉ s.2.2)
    (hnames : ∀ nw ∈ d, nameOk nw.1) (hvals : ∀ nw ∈ d, cleanVal nw.2)
    (hnodupSegs : (segs.map (fun s => s.1)).Nodup)
    (hnodupD : (d.map Prod.fst).Nodup) (hmem : n ∈ segs.map (fun s => s.1))
    (hlook : lookupA n d = some w) :
    lookupA n (extractVariablesText (fillTemplateText (chain a0 segs) d)) =
      some w := by
  rw [fillTemplateText_chain d segs a0 ha
    (fun s hs => ⟨wcName_nameOk (hseg s hs).1, (hseg s hs).2.1,
      (hseg s hs).2.2.1, (hseg s hs).2.2.2⟩) hnames hvals]
  have hex : ∀ s ∈ segs.map (fun s => (s.1, valAfter d s.1 s.2.1, s.2.2)),
      exSeg s := by
    intro s hs
    simp only [List.mem_map] at hs
    obtain ⟨s0, hs0, he⟩ := hs
    rw [← he]
    exact ⟨(hseg s0 hs0).1,
      valAfter_rb_free d s0.1 s0.2.1 (hseg s0 hs0).2.1
        (fun nw hnw => (hvals nw hnw).1), (hseg s0 hs0).2.2.2⟩
  rw [extractVariablesText, extractScan_chain ha hex]
  have emap : (segs.map (fun s => (s.1, valAfter d s.1 s.2.1, s.2.2))).map
      (fun s => (s.1, s.2.1)) =
      segs.map (fun s => (s.1, valAfter d s.1 s.2.1)) := by
    rw [List.map_map]
    rfl
  have hkeys2 : ((segs.map (fun s => (s.1, valAfter d s.1 s.2.1))).map
      Prod.fst).Nodup := by
    rw [List.map_map]
    simpa [Function.comp] using hnodupSegs
  rw [emap, dedupScan_of_nodup hkeys2]
  obtain ⟨s0, hs0, hn0⟩ := List.mem_map.mp hmem
  have hmem2 : (s0.1, valAfter d s0.1 s0.2.1) ∈
      segs.map (fun s => (s.1, valAfter d s.1 s.2.1)) :=
    List.mem_map_of_mem _ hs0
  have hl2 := lookupA_of_mem_nodup hmem2 hkeys2
  rw [hn0] at hl2
  rw [valAfter_found_nodup d n s0.2.1 w hnodupD hlook] at hl2
  exact hl2

/-- C10 witness: on a concrete two-marker template, the value written for
`b` is read back by discovery after rendering. -/
theorem c10_witness :
    lookupA "b".data
        (extractVariablesText (fillTemplateText
          (chain [] [("a".data, "1".data, " ".data), ("b".data, "2".data, [])])
          [("b".data, "9".data)])) =
      some "9".data :=
  c10_readback [] [("a".data, "1".data, " ".data), ("b".data, "2".data, [])]
    [("b".data, "9".data)] "b".data "9".data (by decide) (by decide)
    (by decide) (by decide) (by decide) (by decide) (by decide) (by decide)
